import Mathlib

/-!
Verification of the git-commits-scraper polling service (src/index.js).

The development shallowly embeds the script: GitHub API responses and the
Discord webhook are modelled as an explicit environment (`Env`), wall-clock
reads (`new Date()`) as explicit `Nat` parameters (milliseconds since the
epoch), the JSON state file as an association list, and the `setInterval`
polling loop as a small step machine driven by an event schedule.
-/

namespace Scraper

/-- A repository descriptor as used by `getOrgRepos` / `getOrgCommits`:
`repoInfo.name`, `repoInfo.owner.login`, and `new Date(repoInfo.pushed_at).getTime()`
(milliseconds since the epoch). -/
structure Repo where
  name : String
  owner : String
  pushed_at : Nat
deriving Repr, DecidableEq

/-- A branch descriptor (`branch.name`) from `GET /repos/.../branches`. -/
structure Branch where
  name : String
deriving Repr, DecidableEq

/-- A commit record with the fields `sendToDiscord` reads:
`commit.commit.message`, `commit.commit.author.name`, `commit.author.login`,
`commit.commit.author.date`, `commit.html_url`. -/
structure Commit where
  message : String
  authorName : String
  authorLogin : String
  authorDate : String
  html_url : String
deriving Repr, DecidableEq

/-- Second-precision truncation of a millisecond instant: the numeric shadow of
`ISODateString`, which renders a date with second precision (so re-parsing the
rendered string yields `t / 1000 * 1000`). -/
def truncSec (t : Nat) : Nat := t / 1000 * 1000

/-- One `axios.post(DISCORD_WEBHOOK_URL, body)` attempt made by `sendToDiscord`,
recorded with the repo name, branch name and commit batch it was built from. -/
structure Notification where
  repoName : String
  branchName : String
  commits : List Commit
  content : String
deriving Repr, DecidableEq

/-- The external world of the script: the paginated org-repo listing, the
branch and commit endpoints (which can fail), the Discord webhook delivery
outcome, and the host's locale rendering of a date (`toLocaleString` with the
Asia/Kolkata time zone). Requests beyond `pages.length` return an empty page. -/
structure Env where
  pages : List (List Repo)
  branchesOf : String → String → Except String (List Branch)
  commitsOf : String → String → String → Nat → Except String (List Commit)
  deliver : String → Except String Unit
  renderIST : String → String

/-- One commit block of the Discord message body built in `sendToDiscord`. -/
def commitBlock (env : Env) (c : Commit) : String :=
  "**Commit Message**: " ++ c.message ++ "\n" ++
  "**Author**: " ++ c.authorName ++ " (<@" ++ c.authorLogin ++ ">)\n" ++
  "**Date**: " ++ env.renderIST c.authorDate ++ " IST\n" ++
  "**Link**: " ++ c.html_url ++ "\n" ++
  "--------------"

/-- The full message `sendToDiscord` builds before posting. -/
def buildMessage (env : Env) (repoName branchName : String) (commitLogs : List Commit) : String :=
  "**Repository**: " ++ repoName ++ "\n**Branch**: " ++ branchName ++ "\n\n" ++
  String.intercalate "\n" (commitLogs.map (commitBlock env))

/-- `sendToDiscord` (src/index.js lines 17-42): builds the message, makes a
single `axios.post` attempt, and catches any delivery error (the `catch` block
only logs), so the function itself never throws. Returns the (always-ok)
outcome together with the list of post attempts made. -/
def sendToDiscord (env : Env) (repoName branchName : String) (commitLogs : List Commit) :
    Except String Unit × List Notification :=
  let message := buildMessage env repoName branchName commitLogs
  let attempt : Notification :=
    { repoName := repoName, branchName := branchName, commits := commitLogs, content := message }
  match env.deliver message with
  | Except.ok _ => (Except.ok (), [attempt])
  | Except.error _ => (Except.ok (), [attempt])

/-- `getRepoBranches` (lines 96-110): returns the branch list, or `[]` when the
request fails (the error is caught and logged). -/
def getRepoBranches (env : Env) (owner repo : String) : List Branch :=
  match env.branchesOf owner repo with
  | Except.ok bs => bs
  | Except.error _ => []

/-- `getBranchCommits` (lines 112-137): requests the commits since the
second-truncated watermark (`since = ISODateString(new Date(since))`), sends a
Discord message when the list is non-empty, and returns `[]` on a caught fetch
error (in which case no message is sent, because the send happens inside the
`try` after a successful request). Returns the commit list together with the
post attempts made. -/
def getBranchCommits (env : Env) (owner repo branch : String) (since : Nat) :
    List Commit × List Notification :=
  match env.commitsOf owner repo branch (truncSec since) with
  | Except.error _ => ([], [])
  | Except.ok cs =>
    if 0 < cs.length then (cs, (sendToDiscord env repo branch cs).2)
    else (cs, [])

/-- The backwards trim loop of `getOrgRepos` (lines 160-169), expressed on the
reversed page: pop entries while `pushedAt < since`; stop at the first entry
with `pushedAt >= since`. The returned `Bool` is the value of the loop's final
`pushedAt < since` test, i.e. whether the outer `if (pushedAt < since) break`
fires (it fires exactly when the scan exhausted the whole page, since the inner
`if (index < 0) break` leaves `pushedAt` at the last examined, old, entry). -/
def dropOldRevB (since : Nat) : List Repo → List Repo × Bool
  | [] => ([], true)
  | r :: rest =>
    if r.pushed_at < since then dropOldRevB since rest
    else (r :: rest, false)

/-- The trimmed page kept by one iteration of `getOrgRepos`: the page with its
maximal trailing run of entries older than `since` removed. -/
def trimPage (since : Nat) (page : List Repo) : List Repo :=
  (dropOldRevB since page.reverse).1.reverse

/-- `getOrgRepos` (lines 139-176): fetch pages in order; an empty page breaks
the loop; otherwise trim the trailing entries older than `since`, append the
survivors, and break iff the trim consumed the whole page. The second
component counts the page requests issued (running past the supplied `pages`
models GitHub returning an empty page). -/
def getOrgRepos (since : Nat) : List (List Repo) → List Repo × Nat
  | [] => ([], 1)
  | page :: rest =>
    match page with
    | [] => ([], 1)
    | _ :: _ =>
      let t := dropOldRevB since page.reverse
      let kept := t.1.reverse
      if t.2 then (kept, 1)
      else
        let next := getOrgRepos since rest
        (kept ++ next.1, next.2 + 1)

/-- One entry of the cycle result: `{ repo, branchCommits }`. -/
structure RepoEntry where
  repo : String
  branchCommits : List (String × List Commit)
deriving Repr, DecidableEq

/-- The per-repository body of the `repos.map` in `getOrgCommits` (lines
49-79): fetch branches; a repository with no branches yields `null` (modelled
`none`) and is later filtered out; otherwise fetch every branch's commits
(notifying per non-empty batch inside `getBranchCommits`) and build the
repository's entry. Returns the entry and the post attempts made. -/
def processRepo (env : Env) (since : Nat) (repoInfo : Repo) :
    Option RepoEntry × List Notification :=
  let branches := getRepoBranches env repoInfo.owner repoInfo.name
  match branches with
  | [] => (none, [])
  | _ :: _ =>
    let results := branches.map (fun b =>
      let rc := getBranchCommits env repoInfo.owner repoInfo.name b.name since
      ((b.name, rc.1), rc.2))
    (some { repo := repoInfo.name, branchCommits := results.map Prod.fst },
     (results.map Prod.snd).flatten)

/-- The observable outcome of one `getOrgCommits` cycle. -/
structure CycleOut where
  repos : List Repo
  orgCommits : List RepoEntry
  notifications : List Notification
  wroteCommitsFile : Bool
  persisted : Nat
deriving Repr

/-- `getOrgCommits` (lines 44-94): list the repositories since the watermark,
process each (the `Promise.all` fan-out preserves list order), drop the `null`
entries of branch-less repositories, write `commits.json` iff any repository
was listed, and finally call `writeLastCheck(new Date())` — the wall clock is
read at that point, at the end of the cycle, and persisted with second
precision. `clockAtWrite` is the value of that `new Date()` read. -/
def getOrgCommits (env : Env) (since : Nat) (clockAtWrite : Nat) : CycleOut :=
  let repos := (getOrgRepos since env.pages).1
  let processed := repos.map (processRepo env since)
  let filteredReposUpdates := (processed.map Prod.fst).filterMap id
  { repos := repos
    orgCommits := filteredReposUpdates
    notifications := (processed.map Prod.snd).flatten
    wroteCommitsFile := 0 < repos.length
    persisted := truncSec clockAtWrite }

/-- JavaScript property assignment `data[k] = v` on a parsed JSON object,
followed by `JSON.stringify`: replace the value of an existing key in place,
or append the key at the end. -/
def setKey (k v : String) : List (String × String) → List (String × String)
  | [] => [(k, v)]
  | (k1, v1) :: rest => if k1 = k then (k, v) :: rest else (k1, v1) :: setKey k v rest

/-- JavaScript property read `data[k]` on a parsed JSON object. -/
def lookupKey (k : String) : List (String × String) → Option String
  | [] => none
  | (k1, v1) :: rest => if k1 = k then some v1 else lookupKey k rest

/-- `writeLastCheck` (lines 184-188): read `data.json`, set
`data.last_checked = ISODateString(last_checked)`, write the object back.
`render` stands for the host's `ISODateString` calendar rendering. -/
def writeLastCheck (render : Nat → String) (last_checked : Nat)
    (dataFile : List (String × String)) : List (String × String) :=
  setKey "last_checked" (render last_checked) dataFile

/-- The mutable state visible to the polling loop: the `isFetching` flag and
the persisted watermark. -/
structure PollState where
  isFetching : Bool
  lastChecked : Nat
deriving Repr, DecidableEq

/-- The guard at the top of the `setInterval` callback (lines 224-230): a tick
during a running cycle returns immediately; otherwise `isFetching` is set and
the cycle starts. The `Bool` reports whether a cycle was started. -/
def onTick (s : PollState) : PollState × Bool :=
  if s.isFetching then (s, false)
  else ({ s with isFetching := true }, true)

/-- The settling of an awaited `main()` inside the callback (lines 232-238):
on success the watermark written during the cycle is in place; on a caught
failure the watermark is untouched; either way the `finally` clause clears
`isFetching`. -/
def onSettle (s : PollState) (outcome : Option Nat) : PollState :=
  match outcome with
  | some w => { isFetching := false, lastChecked := w }
  | none => { s with isFetching := false }

/-- One timer tick in which, when a cycle starts, it also settles before the
next tick fires (the serialized schedule): guard, then run-and-settle. -/
def tickBody (s : PollState) (outcome : Option Nat) : PollState × Bool :=
  let t := onTick s
  if t.2 then (onSettle t.1 outcome, true) else (t.1, false)

/-- Fold a schedule of serialized ticks, recording whether each ran a cycle. -/
def runTimer (s : PollState) : List (Option Nat) → List Bool
  | [] => []
  | o :: rest =>
    let t := tickBody s o
    t.2 :: runTimer t.1 rest

/-- `startPolling` (lines 215-243): the first cycle is awaited directly inside
the outer `try`; only when it succeeds is `setInterval` reached, after which
the given tick schedule runs. When the first cycle throws, the outer `catch`
logs the error and the function returns without ever installing the timer, so
no tick ever fires. The result records, per tick that fired, whether it ran a
cycle. -/
def startPolling (firstOutcome : Option Nat)
    (ticks : List (Option Nat)) : List Bool :=
  match firstOutcome with
  | some w => runTimer { isFetching := false, lastChecked := w } ticks
  | none => []

/-- Descending-by-push-time order, as the `sort=pushed` listing returns. -/
abbrev pushedDesc (l : List Repo) : Prop :=
  l.Pairwise (fun a b => b.pushed_at ≤ a.pushed_at)

/-! ### Lemmas about the backward trim loop -/

theorem dropOldRevB_eq_of_all (since : Nat) (l1 l2 : List Repo)
    (h : ∀ r ∈ l1, r.pushed_at < since) :
    dropOldRevB since (l1 ++ l2) = dropOldRevB since l2 := by
  induction l1 with
  | nil => rfl
  | cons a t ih =>
    have ha : a.pushed_at < since := h a (by simp)
    simp only [List.cons_append, dropOldRevB, if_pos ha]
    exact ih (fun r hr => h r (by simp [hr]))

theorem dropOldRevB_all_old (since : Nat) (l : List Repo)
    (h : ∀ r ∈ l, r.pushed_at < since) :
    dropOldRevB since l = ([], true) := by
  have := dropOldRevB_eq_of_all since l [] h
  simpa using this

theorem dropOldRevB_cons_of_ge (since : Nat) (r : Repo) (l : List Repo)
    (h : since ≤ r.pushed_at) :
    dropOldRevB since (r :: l) = (r :: l, false) := by
  simp [dropOldRevB, Nat.not_lt.mpr h]

theorem dropOldRevB_snd_iff (since : Nat) (l : List Repo) :
    (dropOldRevB since l).2 = true ↔ ∀ r ∈ l, r.pushed_at < since := by
  induction l with
  | nil => simp [dropOldRevB]
  | cons a t ih =>
    by_cases ha : a.pushed_at < since
    · simp [dropOldRevB, ha, ih]
    · simp [dropOldRevB, ha]

theorem dropOldRevB_fst_eq_filter (since : Nat) (l : List Repo)
    (h : l.Pairwise (fun a b => a.pushed_at ≤ b.pushed_at)) :
    (dropOldRevB since l).1 = l.filter (fun r => since ≤ r.pushed_at) := by
  induction l with
  | nil => rfl
  | cons a t ih =>
    rcases List.pairwise_cons.mp h with ⟨hall, ht⟩
    by_cases ha : a.pushed_at < since
    · have hna : ¬ (since ≤ a.pushed_at) := Nat.not_le.mpr ha
      simp [dropOldRevB, ha, ih ht, List.filter_cons, hna]
    · have hge : since ≤ a.pushed_at := Nat.not_lt.mp ha
      have hall2 : t.filter (fun r => since ≤ r.pushed_at) = t :=
        List.filter_eq_self.mpr (by
          intro r hr
          simpa using le_trans hge (hall r hr))
      simp [dropOldRevB, ha, List.filter_cons, hge, hall2]

theorem trimPage_eq_filter (since : Nat) (page : List Repo) (h : pushedDesc page) :
    trimPage since page = page.filter (fun r => since ≤ r.pushed_at) := by
  have hasc : page.reverse.Pairwise (fun a b => a.pushed_at ≤ b.pushed_at) :=
    List.pairwise_reverse.mpr (by simpa [flip] using h)
  calc trimPage since page
      = (page.reverse.filter (fun r => since ≤ r.pushed_at)).reverse := by
        rw [trimPage, dropOldRevB_fst_eq_filter since page.reverse hasc]
    _ = (page.filter (fun r => since ≤ r.pushed_at)).reverse.reverse := by
        rw [List.filter_reverse]
    _ = page.filter (fun r => since ≤ r.pushed_at) := List.reverse_reverse _

/-! ### Step equations for the pagination loop -/

theorem getOrgRepos_nil_page (since : Nat) (rest : List (List Repo)) :
    getOrgRepos since ([] :: rest) = ([], 1) := rfl

theorem getOrgRepos_cons_continue (since : Nat) (page : List Repo)
    (rest : List (List Repo)) (hne : page ≠ [])
    (hb : (dropOldRevB since page.reverse).2 = false) :
    getOrgRepos since (page :: rest) =
      (trimPage since page ++ (getOrgRepos since rest).1,
       (getOrgRepos since rest).2 + 1) := by
  cases page with
  | nil => exact absurd rfl hne
  | cons a t =>
    rw [List.reverse_cons] at hb
    simp [getOrgRepos, trimPage, hb]

theorem getOrgRepos_cons_break (since : Nat) (page : List Repo)
    (rest : List (List Repo)) (hne : page ≠ [])
    (hb : (dropOldRevB since page.reverse).2 = true) :
    getOrgRepos since (page :: rest) = (trimPage since page, 1) := by
  cases page with
  | nil => exact absurd rfl hne
  | cons a t =>
    rw [List.reverse_cons] at hb
    simp [getOrgRepos, trimPage, hb]

theorem getOrgRepos_fst_eq_filter (since : Nat) (pages : List (List Repo))
    (hne : ∀ p ∈ pages, p ≠ []) (hsort : pushedDesc pages.flatten) :
    (getOrgRepos since pages).1 =
      pages.flatten.filter (fun r => since ≤ r.pushed_at) := by
  induction pages with
  | nil => rfl
  | cons page rest ih =>
    have hpne : page ≠ [] := hne page (by simp)
    have hflat : (page :: rest).flatten = page ++ rest.flatten := by simp
    rw [hflat] at hsort
    rcases List.pairwise_append.mp hsort with ⟨hpage, hrest, hcross⟩
    have htrim : trimPage since page = page.filter (fun r => since ≤ r.pushed_at) :=
      trimPage_eq_filter since page hpage
    by_cases hb : (dropOldRevB since page.reverse).2 = true
    · have hold : ∀ r ∈ page, r.pushed_at < since := by
        have := (dropOldRevB_snd_iff since page.reverse).mp hb
        intro r hr
        exact this r (by simpa using hr)
      obtain ⟨a0, ha0⟩ : ∃ a0, a0 ∈ page := by
        cases page with
        | nil => exact absurd rfl hpne
        | cons x xs => exact ⟨x, by simp⟩
      have h1 : page.filter (fun r => since ≤ r.pushed_at) = [] :=
        List.filter_eq_nil_iff.mpr (by
          intro r hr
          simpa using Nat.not_le.mpr (hold r hr))
      have h2 : rest.flatten.filter (fun r => since ≤ r.pushed_at) = [] :=
        List.filter_eq_nil_iff.mpr (by
          intro b hbmem
          have hle : b.pushed_at ≤ a0.pushed_at := hcross a0 ha0 b hbmem
          simpa using Nat.not_le.mpr (lt_of_le_of_lt hle (hold a0 ha0)))
      rw [getOrgRepos_cons_break since page rest hpne hb, hflat,
        List.filter_append, h1, h2, htrim, h1]
      rfl
    · have hb2 : (dropOldRevB since page.reverse).2 = false := by
        simpa using hb
      have ihr := ih (fun p hp => hne p (by simp [hp])) hrest
      rw [getOrgRepos_cons_continue since page rest hpne hb2, hflat,
        List.filter_append, htrim, ihr]

theorem getOrgRepos_requests_le (since : Nat) (pages : List (List Repo)) :
    ∀ i p, pages.get? i = some p → (∀ r ∈ p, r.pushed_at < since) →
      (getOrgRepos since pages).2 ≤ i + 1 := by
  induction pages with
  | nil =>
    intro i p hp _
    simp at hp
  | cons page rest ih =>
    intro i p hp hold
    cases page with
    | nil =>
      rw [getOrgRepos_nil_page]
      omega
    | cons a t =>
      cases i with
      | zero =>
        have hpp : a :: t = p := by simpa using hp
        have hold2 : ∀ r ∈ a :: t, r.pushed_at < since := by
          rw [hpp]
          exact hold
        have hb : (dropOldRevB since ((a :: t).reverse)).2 = true :=
          (dropOldRevB_snd_iff since ((a :: t).reverse)).mpr (by
            intro r hr
            exact hold2 r (List.mem_reverse.mp hr))
        rw [getOrgRepos_cons_break since (a :: t) rest (by simp) hb]
      | succ j =>
        have hp2 : rest.get? j = some p := by simpa using hp
        by_cases hb : (dropOldRevB since ((a :: t).reverse)).2 = true
        · rw [getOrgRepos_cons_break since (a :: t) rest (by simp) hb]
          omega
        · have hb2 : (dropOldRevB since ((a :: t).reverse)).2 = false := by
            simpa using hb
          have hrec := ih j p hp2 hold
          rw [getOrgRepos_cons_continue since (a :: t) rest (by simp) hb2]
          simpa using Nat.add_le_add_right hrec 1

/-! ### Claim C3: exactness of the Repository Lister -/

/-- C3: for every watermark `W` and repository sequence sorted descending by
push time (delivered in non-empty pages), `getOrgRepos` returns exactly the
repositories with push instant `≥ W` (so one exactly equal to `W` is
retained), in the same descending order, and never issues a request beyond
the first page whose entries are entirely older than `W`. -/
theorem c3_lister_exact (W : Nat) (pages : List (List Repo))
    (hne : ∀ p ∈ pages, p ≠ []) (hsort : pushedDesc pages.flatten) :
    (getOrgRepos W pages).1 = pages.flatten.filter (fun r => W ≤ r.pushed_at) ∧
    ∀ i p, pages.get? i = some p → (∀ r ∈ p, r.pushed_at < W) →
      (getOrgRepos W pages).2 ≤ i + 1 :=
  ⟨getOrgRepos_fst_eq_filter W pages hne hsort,
   fun i p hp hold => getOrgRepos_requests_le W pages i p hp hold⟩

def rAlpha : Repo := { name := "alpha", owner := "org", pushed_at := 30000 }

def rBeta : Repo := { name := "beta", owner := "org", pushed_at := 10000 }

def rGamma : Repo := { name := "gamma", owner := "org", pushed_at := 5000 }

/-- Witness for C3: two pages, the second entirely older than the
watermark 10000; the lister keeps exactly the entries at or after 10000 (the
entry exactly at 10000 included) and requests at most the two pages. -/
theorem c3_lister_exact_witness :
    (getOrgRepos 10000 [[rAlpha, rBeta], [rGamma]]).1 = [rAlpha, rBeta] ∧
    (getOrgRepos 10000 [[rAlpha, rBeta], [rGamma]]).2 ≤ 2 := by
  have h := c3_lister_exact 10000 [[rAlpha, rBeta], [rGamma]]
    (by decide) (by decide)
  refine ⟨?_, h.2 1 [rGamma] rfl (by decide)⟩
  rw [h.1]
  decide

/-! ### Claim C2: partially-trimmed first page -/

def mkRepo (n : Nat) (t : Nat) : Repo :=
  { name := "r" ++ toString n, owner := "org", pushed_at := t }

def cKs : List Repo :=
  [mkRepo 1 30000, mkRepo 2 29000, mkRepo 3 28000, mkRepo 4 27000,
   mkRepo 5 26000, mkRepo 6 25000]

def cKlast : Repo := mkRepo 7 24000

def cOld : List Repo := [mkRepo 8 13000, mkRepo 9 12000, mkRepo 10 11000]

def cPage : List Repo := cKs ++ cKlast :: cOld

def cKeep : List Repo := cKs ++ [cKlast]

/-- C2 counterexample: a first page of 10 repositories, descending by push
time, whose last 3 entries are older than the watermark 20000 (but not all
entries are). The lister does return the page minus those 3 trailing entries,
but it issues a second page request (`.2 = 2`): the loop breaks only when a
whole page is trimmed, so the claimed "no page 2 request" is false. -/
theorem c2_counterexample :
    pushedDesc cPage ∧ cPage.length = 10 ∧
    (∀ r ∈ cOld, r.pushed_at < 20000) ∧ (∃ r ∈ cPage, 20000 ≤ r.pushed_at) ∧
    (getOrgRepos 20000 [cPage]).1 = cKeep ∧
    ¬ (getOrgRepos 20000 [cPage]).2 = 1 := by
  decide

/-- C2 (amended): with a first page whose trailing entries (but not all) are
older than the watermark, the lister returns the page minus that trailing run
and issues exactly one further page request; that second page (empty or
entirely older, as it must be for a descending listing) then terminates the
loop. -/
theorem c2_amended_trim (W : Nat) (ks : List Repo) (klast : Repo)
    (old : List Repo) (rest : List (List Repo))
    (hklast : W ≤ klast.pushed_at)
    (hold : ∀ r ∈ old, r.pushed_at < W)
    ( _holdne : old ≠ [])
    (hrest : rest = [] ∨
      ∃ p rest2, rest = p :: rest2 ∧ (p = [] ∨ ∀ r ∈ p, r.pushed_at < W)) :
    getOrgRepos W ((ks ++ klast :: old) :: rest) = (ks ++ [klast], 2) := by
  have hrev : (ks ++ klast :: old).reverse = old.reverse ++ klast :: ks.reverse := by
    simp
  have h1 : dropOldRevB W (old.reverse ++ klast :: ks.reverse)
      = (klast :: ks.reverse, false) := by
    rw [dropOldRevB_eq_of_all W old.reverse _ (by
      intro r hr
      exact hold r (List.mem_reverse.mp hr))]
    exact dropOldRevB_cons_of_ge W klast ks.reverse hklast
  have hb : (dropOldRevB W (ks ++ klast :: old).reverse).2 = false := by
    rw [hrev, h1]
  have hkept : trimPage W (ks ++ klast :: old) = ks ++ [klast] := by
    rw [trimPage, hrev, h1]
    simp
  have hnext : getOrgRepos W rest = ([], 1) := by
    rcases hrest with rfl | ⟨p, rest2, rfl, hp⟩
    · rfl
    · rcases hp with rfl | hpold
      · rfl
      · cases p with
        | nil => rfl
        | cons a t =>
          have hd : dropOldRevB W ((a :: t).reverse) = ([], true) :=
            dropOldRevB_all_old _ _ (by
              intro r hr
              exact hpold r (List.mem_reverse.mp hr))
          rw [getOrgRepos_cons_break W (a :: t) rest2 (by simp) (by rw [hd])]
          rw [trimPage, hd]
          rfl
  rw [getOrgRepos_cons_continue W _ rest (by simp) hb, hkept, hnext]
  simp

/-- Witness for the amended C2 on the concrete page of the counterexample. -/
theorem c2_amended_trim_witness :
    getOrgRepos 20000 [cPage] = (cKeep, 2) :=
  c2_amended_trim 20000 cKs cKlast cOld []
    (by decide) (by decide) (by decide) (Or.inl rfl)

/-! ### Claim C9: a page whose entries all equal the watermark -/

/-- C9: when every entry of a non-empty fetched page has push instant exactly
equal to the watermark, the backward trim removes nothing (the whole page is
retained) and the loop does not stop there: a further page request is issued
(the stop test is the strict `pushedAt < since`). -/
theorem c9_all_equal_page (W : Nat) (p : List Repo) (rest : List (List Repo))
    (hne : p ≠ []) (hall : ∀ r ∈ p, r.pushed_at = W) :
    trimPage W p = p ∧
    getOrgRepos W (p :: rest) =
      (p ++ (getOrgRepos W rest).1, (getOrgRepos W rest).2 + 1) := by
  rcases List.eq_nil_or_concat p with rfl | ⟨l2, a, rfl⟩
  · exact absurd rfl hne
  · simp only [List.concat_eq_append] at hne hall ⊢
    have hrev : (l2 ++ [a]).reverse = a :: l2.reverse := by simp
    have ha : W ≤ a.pushed_at := le_of_eq (hall a (by simp)).symm
    have hd : dropOldRevB W (a :: l2.reverse) = (a :: l2.reverse, false) :=
      dropOldRevB_cons_of_ge W a l2.reverse ha
    have htrim : trimPage W (l2 ++ [a]) = l2 ++ [a] := by
      rw [trimPage, hrev, hd]
      simp
    refine ⟨htrim, ?_⟩
    rw [getOrgRepos_cons_continue W (l2 ++ [a]) rest (by simp) (by rw [hrev, hd]),
      htrim]

def rEq : Repo := { name := "boundary", owner := "org", pushed_at := 20000 }

/-- Witness for C9 at a concrete one-entry page sitting exactly on the
watermark: nothing is trimmed and a second page request is made. -/
theorem c9_all_equal_page_witness :
    trimPage 20000 [rEq] = [rEq] ∧
    getOrgRepos 20000 [[rEq]] =
      ([rEq] ++ (getOrgRepos 20000 []).1, (getOrgRepos 20000 []).2 + 1) :=
  c9_all_equal_page 20000 [rEq] [] (by decide) (by decide)

/-! ### Claim C1: when the watermark clock is read -/

def env0 : Env :=
  { pages := []
    branchesOf := fun _ _ => Except.ok []
    commitsOf := fun _ _ _ _ => Except.ok []
    deliver := fun _ => Except.ok ()
    renderIST := fun s => s }

/-- C1 counterexample: a cycle that reads watermark 0, starts with the wall
clock at 1000 and reaches the `writeLastCheck(new Date())` call (line 92) with
the wall clock at 5000 persists 5000, not the cycle-start instant 1000: the
clock is read once, at the END of the cycle, after listing and fetching, so
the persisted watermark differs from the instant at which the cycle began. -/
theorem c1_counterexample :
    (0 : Nat) ≤ 1000 ∧ (1000 : Nat) ≤ 5000 ∧
    ¬ (getOrgCommits env0 0 5000).persisted = 1000 := by
  decide

/-- C1 (amended): the watermark persisted by a completed cycle equals the
wall-clock instant read when `writeLastCheck(new Date())` runs at the end of
the cycle (after listing and fetching), truncated to second precision by
`ISODateString`; since the stored watermark is second-aligned and precedes
that clock read, the persisted watermark is at least the watermark read at
the start of the cycle. -/
theorem c1_amended (env : Env) (sinceRead clockAtWrite : Nat)
    (hmono : sinceRead ≤ clockAtWrite) (halign : 1000 ∣ sinceRead) :
    (getOrgCommits env sinceRead clockAtWrite).persisted = truncSec clockAtWrite ∧
    sinceRead ≤ (getOrgCommits env sinceRead clockAtWrite).persisted := by
  refine ⟨rfl, ?_⟩
  obtain ⟨k, rfl⟩ := halign
  show 1000 * k ≤ truncSec clockAtWrite
  have hk : k ≤ clockAtWrite / 1000 := by
    rw [Nat.le_div_iff_mul_le (by norm_num)]
    calc k * 1000 = 1000 * k := Nat.mul_comm k 1000
      _ ≤ clockAtWrite := hmono
  calc 1000 * k = k * 1000 := Nat.mul_comm 1000 k
    _ ≤ clockAtWrite / 1000 * 1000 := Nat.mul_le_mul_right 1000 hk
    _ = truncSec clockAtWrite := rfl

/-- Witness for the amended C1 at a concrete monotone clock trace. -/
theorem c1_amended_witness :
    (getOrgCommits env0 1000 5500).persisted = truncSec 5500 ∧
    1000 ≤ (getOrgCommits env0 1000 5500).persisted :=
  c1_amended env0 1000 5500 (by decide) (by decide)

/-! ### Claim C4: effect of errors on the polling timer -/

/-- C4 counterexample: when the very first cycle fails, the outer catch of
`startPolling` swallows the error but `setInterval` (line 223) is never
reached, so the single scheduled tick never runs a cycle — refuting the claim
that after an error in any cycle, including the very first one, later timer
ticks still run cycles. -/
theorem c4_counterexample :
    startPolling none [some 5000] = [] ∧
    ¬ startPolling none [some 5000] = [true] := by
  decide

theorem runTimer_idle (ticks : List (Option Nat)) :
    ∀ w : Nat, runTimer { isFetching := false, lastChecked := w } ticks =
      List.replicate ticks.length true := by
  induction ticks with
  | nil =>
    intro w
    rfl
  | cons o rest ih =>
    intro w
    cases o with
    | some v => simpa [runTimer, tickBody, onTick, onSettle, List.replicate_succ] using ih v
    | none => simpa [runTimer, tickBody, onTick, onSettle, List.replicate_succ] using ih w

/-- C4 (amended): no error escapes `startPolling` uncaught; when the first
cycle succeeds the timer is started and every serialized tick runs a cycle —
even after scheduled cycles that fail, since their errors are caught and the
`finally` clears the guard — but when the very first cycle fails, the timer
is never started, so no later tick runs any cycle. -/
theorem c4_amended (w : Nat) (ticks : List (Option Nat)) :
    startPolling (some w) ticks = List.replicate ticks.length true ∧
    startPolling none ticks = [] :=
  ⟨runTimer_idle ticks w, rfl⟩

/-! ### Claim C5: the overlap guard -/

/-- C5: a timer tick that fires while a cycle is Running is a no-op — the
state (including the watermark) is unchanged and no cycle is started — and
every settle, success or caught failure, clears the flag back to Idle. -/
theorem c5_overlap_guard (s : PollState) (hrun : s.isFetching = true) :
    onTick s = (s, false) ∧
    (onTick s).1.lastChecked = s.lastChecked ∧
    ∀ (s2 : PollState) (o : Option Nat), (onSettle s2 o).isFetching = false := by
  refine ⟨by simp [onTick, hrun], by simp [onTick, hrun], ?_⟩
  intro s2 o
  cases o <;> simp [onSettle]

/-! ### Claims C6, C7, C8: per-unit failure containment and notifications -/

theorem sendToDiscord_snd (env : Env) (r b : String) (cs : List Commit) :
    (sendToDiscord env r b cs).2 =
      [{ repoName := r, branchName := b, commits := cs,
         content := buildMessage env r b cs }] := by
  cases h : env.deliver (buildMessage env r b cs) <;> simp [sendToDiscord, h]

/-- C6: a caught failure fetching one repository's branch list yields `[]` for
that repository, a caught failure fetching one branch's commit list yields
`[]` for that branch with no notification, the processing of a repository
depends only on the platform's answers for that repository (so one unit's
failure cannot alter any other repository's or branch's result), and the
cycle still runs to completion and persists its watermark. -/
theorem c6_failure_isolated (env env2 : Env) (since ce : Nat) (ri : Repo)
    (b e : String) :
    (env.branchesOf ri.owner ri.name = Except.error e →
      getRepoBranches env ri.owner ri.name = []) ∧
    (env.commitsOf ri.owner ri.name b (truncSec since) = Except.error e →
      getBranchCommits env ri.owner ri.name b since = ([], [])) ∧
    ((env.branchesOf ri.owner ri.name = env2.branchesOf ri.owner ri.name ∧
      (∀ br s2, env.commitsOf ri.owner ri.name br s2 =
        env2.commitsOf ri.owner ri.name br s2) ∧
      env.deliver = env2.deliver ∧ env.renderIST = env2.renderIST) →
      processRepo env since ri = processRepo env2 since ri) ∧
    (getOrgCommits env since ce).persisted = truncSec ce := by
  refine ⟨?_, ?_, ?_, rfl⟩
  · intro h
    simp [getRepoBranches, h]
  · intro h
    simp [getBranchCommits, h]
  · rintro ⟨h1, h2, h3, h4⟩
    have hstd : ∀ r2 b2 cs, sendToDiscord env r2 b2 cs = sendToDiscord env2 r2 b2 cs := by
      intro r2 b2 cs
      unfold sendToDiscord buildMessage commitBlock
      rw [h3, h4]
    have hgbc : ∀ brName, getBranchCommits env ri.owner ri.name brName since =
        getBranchCommits env2 ri.owner ri.name brName since := by
      intro brName
      unfold getBranchCommits
      rw [h2 brName (truncSec since)]
      cases env2.commitsOf ri.owner ri.name brName (truncSec since) with
      | error _ => rfl
      | ok cs => simp only [hstd]
    have hbr : getRepoBranches env ri.owner ri.name =
        getRepoBranches env2 ri.owner ri.name := by
      simp [getRepoBranches, h1]
    simp only [processRepo, hbr, hgbc]

def envFail : Env :=
  { pages := []
    branchesOf := fun _ _ => Except.error "boom"
    commitsOf := fun _ _ _ _ => Except.error "boom"
    deliver := fun _ => Except.ok ()
    renderIST := fun s => s }

def envFail2 : Env := { envFail with pages := [[rEq]] }

def rFail : Repo := { name := "failrepo", owner := "orgx", pushed_at := 0 }

/-- Witness for C6: an environment whose branch and commit endpoints fail. -/
theorem c6_failure_isolated_witness :
    getRepoBranches envFail "orgx" "failrepo" = [] ∧
    getBranchCommits envFail "orgx" "failrepo" "main" 0 = ([], []) ∧
    processRepo envFail 0 rFail = processRepo envFail2 0 rFail ∧
    (getOrgCommits envFail 0 9500).persisted = truncSec 9500 := by
  have h := c6_failure_isolated envFail envFail2 0 9500 rFail "main" "boom"
  exact ⟨h.1 rfl, h.2.1 rfl, h.2.2.1 ⟨rfl, fun _ _ => rfl, rfl, rfl⟩, h.2.2.2⟩

/-- C7: every branch of a listed repository appears in that repository's entry
of the cycle result paired with its fetched commit list — an empty list
included — and a Discord post is attempted for a branch exactly when its
fetched commit list is non-empty. -/
theorem c7_zero_commit_branches (env : Env) (since : Nat) (ri : Repo) (b : Branch)
    (hb : b ∈ getRepoBranches env ri.owner ri.name) :
    (∃ bcs, (processRepo env since ri).1 =
        some { repo := ri.name, branchCommits := bcs } ∧
      (b.name, (getBranchCommits env ri.owner ri.name b.name since).1) ∈ bcs) ∧
    ((getBranchCommits env ri.owner ri.name b.name since).2 ≠ [] ↔
      (getBranchCommits env ri.owner ri.name b.name since).1 ≠ []) := by
  constructor
  · cases hbr : getRepoBranches env ri.owner ri.name with
    | nil =>
      rw [hbr] at hb
      simp at hb
    | cons b0 bs =>
      refine ⟨(b0 :: bs).map (fun bb =>
        (bb.name, (getBranchCommits env ri.owner ri.name bb.name since).1)), ?_, ?_⟩
      · unfold processRepo
        rw [hbr]
        simp [List.map_map, Function.comp]
      · rw [hbr] at hb
        exact List.mem_map.mpr ⟨b, hb, rfl⟩
  · unfold getBranchCommits
    cases env.commitsOf ri.owner ri.name b.name (truncSec since) with
    | error _ => simp
    | ok cs =>
      by_cases hcs : 0 < cs.length
      · have hne : cs ≠ [] := by
          intro hnil
          rw [hnil] at hcs
          simp at hcs
        simp [hcs, sendToDiscord_snd, hne]
      · have hnil : cs = [] := List.length_eq_zero.mp (Nat.eq_zero_of_not_pos hcs)
        simp [hcs, hnil]

def envOne : Env :=
  { pages := [[rAlpha]]
    branchesOf := fun _ _ => Except.ok [{ name := "main" }]
    commitsOf := fun _ _ _ _ => Except.ok []
    deliver := fun _ => Except.ok ()
    renderIST := fun s => s }

/-- Witness for C7: a repository with one branch and zero commits — the branch
appears in the entry with an empty list and no post is attempted. -/
theorem c7_zero_commit_branches_witness :
    (∃ bcs, (processRepo envOne 0 rAlpha).1 =
        some { repo := rAlpha.name, branchCommits := bcs } ∧
      ("main", (getBranchCommits envOne rAlpha.owner rAlpha.name "main" 0).1) ∈ bcs) ∧
    ((getBranchCommits envOne rAlpha.owner rAlpha.name "main" 0).2 ≠ [] ↔
      (getBranchCommits envOne rAlpha.owner rAlpha.name "main" 0).1 ≠ []) :=
  c7_zero_commit_branches envOne 0 rAlpha { name := "main" } (by decide)

/-- C8: `sendToDiscord` makes exactly one post attempt per call, never
propagates a delivery failure (its outcome is always `ok`, the catch only
logs), never retries, and the delivery outcome cannot change the commit list
`getBranchCommits` returns for the branch. -/
theorem c8_delivery_swallowed (env : Env) (d : String → Except String Unit)
    (r b : String) (cs : List Commit) :
    (sendToDiscord env r b cs).1 = Except.ok () ∧
    (sendToDiscord env r b cs).2.length = 1 ∧
    ∀ o rp br (since : Nat),
      (getBranchCommits { env with deliver := d } o rp br since).1 =
        (getBranchCommits env o rp br since).1 := by
  refine ⟨?_, ?_, ?_⟩
  · cases h : env.deliver (buildMessage env r b cs) <;> simp [sendToDiscord, h]
  · rw [sendToDiscord_snd]
    rfl
  · intro o rp br since
    cases h2 : env.commitsOf o rp br (truncSec since) with
    | error err => simp [getBranchCommits, h2]
    | ok cs2 =>
      by_cases h : 0 < cs2.length <;> simp [getBranchCommits, h2, h]

/-! ### Claim C10: writeLastCheck preserves the other fields -/

theorem lookupKey_setKey_same (k v : String) (file : List (String × String)) :
    lookupKey k (setKey k v file) = some v := by
  induction file with
  | nil => simp [setKey, lookupKey]
  | cons kv rest ih =>
    obtain ⟨k1, v1⟩ := kv
    by_cases h : k1 = k
    · simp [setKey, lookupKey, h]
    · simp [setKey, lookupKey, h, ih]

theorem lookupKey_setKey_ne (k key v : String) (file : List (String × String))
    (h : k ≠ key) :
    lookupKey k (setKey key v file) = lookupKey k file := by
  induction file with
  | nil => simp [setKey, lookupKey, Ne.symm h]
  | cons kv rest ih =>
    obtain ⟨k1, v1⟩ := kv
    by_cases h1 : k1 = key
    · subst h1
      simp [setKey, lookupKey, Ne.symm h]
    · simp [setKey, lookupKey, h1, ih]

/-- C10: `writeLastCheck` reads the state object, replaces only the
`last_checked` key (with the rendered instant), and leaves the value of every
other key unchanged. -/
theorem c10_frame (render : Nat → String) (t : Nat)
    (file : List (String × String)) (k : String) (hk : k ≠ "last_checked") :
    lookupKey "last_checked" (writeLastCheck render t file) = some (render t) ∧
    lookupKey k (writeLastCheck render t file) = lookupKey k file :=
  ⟨lookupKey_setKey_same _ _ _, lookupKey_setKey_ne _ _ _ _ hk⟩

/-- Witness for C10 on a concrete two-field state file. -/
theorem c10_frame_witness :
    lookupKey "last_checked"
      (writeLastCheck (fun n => toString n) 5000
        [("org", "marlin"), ("last_checked", "x")]) = some (toString 5000) ∧
    lookupKey "org"
      (writeLastCheck (fun n => toString n) 5000
        [("org", "marlin"), ("last_checked", "x")]) =
      lookupKey "org" [("org", "marlin"), ("last_checked", "x")] :=
  c10_frame (fun n => toString n) 5000
    [("org", "marlin"), ("last_checked", "x")] "org" (by decide)

/-- Witness for C5 at a concrete Running state and both settle outcomes. -/
theorem c5_overlap_guard_witness :
    onTick { isFetching := true, lastChecked := 7000 } =
      ({ isFetching := true, lastChecked := 7000 }, false) ∧
    (onTick { isFetching := true, lastChecked := 7000 }).1.lastChecked = 7000 ∧
    (onSettle { isFetching := true, lastChecked := 7000 } (some 9000)).isFetching = false ∧
    (onSettle { isFetching := true, lastChecked := 7000 } none).isFetching = false := by
  have h := c5_overlap_guard { isFetching := true, lastChecked := 7000 } rfl
  exact ⟨h.1, h.2.1,
    h.2.2 { isFetching := true, lastChecked := 7000 } (some 9000),
    h.2.2 { isFetching := true, lastChecked := 7000 } none⟩

end Scraper
